import Mathlib

/-
Verification development for the cntx library (Nintendo Switch content
archive reader).  The Rust sources are embedded shallowly:

  * machine integers (u32, u64, usize) become Nat; wherever the machine
    width matters the embedding applies an explicit reduction modulo 2^32,
    2^64 or 2^128 (wrap32 / wrap64 / wrap128);
  * the cryptographic primitives (AES-ECB key-area decryption, the AES
    block function feeding CTR mode) are opaque to the parsing logic and
    are passed as function parameters; the XTS decryption of the NCA
    header happens before any logic the claims concern, so the embedding
    takes the decrypted header and decrypted filesystem headers as inputs;
  * the underlying byte source (the ReadSeek object) is modelled as a
    function from absolute position and requested size to the list of
    bytes the source supplies, and reader state (the current position) is
    threaded explicitly;
  * Rust Result values become the RResult type below; a Rust panic
    (index out of bounds, todo macro, unwrap on None) is the dedicated
    RResult.diverged constructor, distinct from every returned error.
-/

-- Modulo reductions standing for the machine widths.

def wrap32 (n : Nat) : Nat := n % 2 ^ 32

def wrap64 (n : Nat) : Nat := n % 2 ^ 64

def wrap128 (n : Nat) : Nat := n % 2 ^ 128

/-- Error kinds used by the library (std::io::ErrorKind values that the
source constructs). -/
inductive ErrKind where
  | invalidInput
  | unexpectedEof
  | notFound
  deriving DecidableEq, Repr

/-- Outcome of a Rust call: an Ok value, a returned io::Error of the given
kind, or a panic (diverged). -/
inductive RResult (α : Type) where
  | ok : α → RResult α
  | err : ErrKind → RResult α
  | diverged : RResult α
  deriving DecidableEq, Repr

-- ---------------------------------------------------------------------
-- util.rs
-- ---------------------------------------------------------------------

/-- Embeds util.rs align_down: value and the complement (u64 bitwise not)
of inv_mask = align - 1.  On u64, the bitwise not of x is 2^64 - 1 - x. -/
def align_down (value align : Nat) : Nat :=
  value &&& (2 ^ 64 - 1 - (align - 1))

/-- Embeds util.rs align_up: (value + inv_mask) & not inv_mask on usize;
the addition wraps at 2^64. -/
def align_up (value align : Nat) : Nat :=
  wrap64 (value + (align - 1)) &&& (2 ^ 64 - 1 - (align - 1))

-- Bit-arithmetic characterisations of the two alignment helpers.

theorem testBit_two_pow_sub_two_pow {n k : Nat} (hk : k ≤ n) (i : Nat) :
    (2 ^ n - 2 ^ k).testBit i = (decide (k ≤ i) && decide (i < n)) := by
  have hsplit : 2 ^ n - 2 ^ k = 2 ^ k * (2 ^ (n - k) - 1) + 0 := by
    rw [Nat.mul_sub_one, ← Nat.pow_add, Nat.add_sub_cancel' hk, Nat.add_zero]
  rw [hsplit, Nat.testBit_mul_pow_two_add _ (Nat.pos_pow_of_pos k (by norm_num)) i]
  by_cases h1 : i < k
  · simp only [if_pos h1, Nat.zero_testBit]
    have : ¬ k ≤ i := by omega
    simp [this]
  · simp only [if_neg h1, Nat.testBit_two_pow_sub_one]
    by_cases h2 : i < n
    · have h3 : i - k < n - k := by omega
      have h4 : k ≤ i := by omega
      simp [h3, h4, h2]
    · have h3 : ¬ (i - k < n - k) := by omega
      simp [h3, h2]

theorem land_sub_pow_eq {v k n : Nat} (hk : k ≤ n) (hv : v < 2 ^ n) :
    v &&& (2 ^ n - 2 ^ k) = v / 2 ^ k * 2 ^ k := by
  apply Nat.eq_of_testBit_eq
  intro i
  rw [Nat.testBit_land, testBit_two_pow_sub_two_pow hk]
  have hrhs : v / 2 ^ k * 2 ^ k = 2 ^ k * (v / 2 ^ k) + 0 := by
    rw [Nat.add_zero, Nat.mul_comm]
  rw [hrhs, Nat.testBit_mul_pow_two_add _ (Nat.pos_pow_of_pos k (by norm_num)) i]
  by_cases h1 : i < k
  · simp [h1, Nat.zero_testBit]
  · simp only [if_neg h1]
    have hdiv : v / 2 ^ k = v >>> k := (Nat.shiftRight_eq_div_pow v k).symm
    rw [hdiv, Nat.testBit_shiftRight]
    have hki : k + (i - k) = i := by omega
    rw [hki]
    by_cases h2 : i < n
    · have h4 : k ≤ i := by omega
      simp [h2, h4]
    · have hvi : v < 2 ^ i := by
        calc v < 2 ^ n := hv
        _ ≤ 2 ^ i := Nat.pow_le_pow_right (by norm_num) (by omega)
      simp [Nat.testBit_lt_two_pow hvi, h2]

theorem align_down_16 {v : Nat} (hv : v < 2 ^ 64) :
    align_down v 16 = v / 16 * 16 := by
  have hmask : (2 ^ 64 - 1 - (16 - 1) : Nat) = 2 ^ 64 - 2 ^ 4 := by norm_num
  unfold align_down
  rw [hmask, land_sub_pow_eq (by norm_num) hv]
  norm_num

theorem align_up_16 {v : Nat} (hv : v + 15 < 2 ^ 64) :
    align_up v 16 = (v + 15) / 16 * 16 := by
  have hmask : (2 ^ 64 - 1 - (16 - 1) : Nat) = 2 ^ 64 - 2 ^ 4 := by norm_num
  have hw : wrap64 (v + (16 - 1)) = v + 15 := by
    unfold wrap64
    omega
  unfold align_up
  rw [hw, hmask, land_sub_pow_eq (by norm_num) hv]
  norm_num

-- ---------------------------------------------------------------------
-- util.rs: Aes128CtrReader
-- ---------------------------------------------------------------------

/-- Keystream byte that CTR mode XORs onto index m of a buffer whose
decryption started at the 16-aligned absolute offset aligned: the AES
block function encKS (opaque here) applied to the 128-bit counter built
from the section ctr (high 64 bits) and aligned >> 4, incremented once
per 16-byte block, at byte m % 16 of the block. -/
def ctrKeystreamByte (encKS : Nat → Nat → Nat) (ctr aligned m : Nat) : Nat :=
  encKS (wrap128 (ctr * 2 ^ 64 + aligned / 16 + m / 16)) (m % 16)

/-- Keystream byte for the absolute stream position p; equals
ctrKeystreamByte at aligned = 0, m = p. -/
def ctrAbsByte (encKS : Nat → Nat → Nat) (ctr p : Nat) : Nat :=
  encKS (wrap128 (ctr * 2 ^ 64 + p / 16)) (p % 16)

/-- Embeds the in-place Ctr128 decrypt of a buffer that was read starting
at the 16-aligned absolute offset aligned: byte m is XORed with the
keystream byte of block m / 16. -/
def ctrDecrypt (encKS : Nat → Nat → Nat) (ctr aligned : Nat) (buf : List Nat) : List Nat :=
  (List.range buf.length).map (fun m => (buf.getD m 0) ^^^ ctrKeystreamByte encKS ctr aligned m)

/-- Embeds the read method of util.rs Aes128CtrReader.  The base reader is
a function from absolute position and requested size to the bytes it
supplies (its read result); pos is the reader position (self.offset, in
sync with the base stream position).  Returns the bytes copied to the
caller buffer and the new position, or diverged where the Rust code would
panic (the copy_from_slice range check).  The Nat subtractions computing
read_buf_size_diff and the replicate padding are exact for all inputs the
claims quantify over (read sizes below 2^64 - 15, base replies no longer
than requested); the final seek reproduces the i64-to-u64 wrap of the
seek method. -/
def Aes128CtrReader.read (base : Nat → Nat → List Nat) (encKS : Nat → Nat → Nat)
    (ctr pos bufLen : Nat) : RResult (List Nat × Nat) :=
  let offset := pos
  let aligned_offset := align_down offset 0x10
  let diff := offset - aligned_offset
  let read_buf_size_raw := wrap64 (bufLen + diff)
  let read_buf_size := align_up read_buf_size_raw 0x10
  let read_buf_size_diff := read_buf_size - read_buf_size_raw
  -- self.seek(SeekFrom::Current(-diff)) moves the base to aligned_offset
  let got := base aligned_offset read_buf_size
  let read_size := got.length
  let read_buf := got ++ List.replicate (read_buf_size - read_size) 0
  -- self.seek(SeekFrom::Current(read_size - read_buf_size_diff))
  let new_pos := (((aligned_offset : Int) + read_size - read_buf_size_diff) % (2 ^ 64 : Int)).toNat
  let dec := ctrDecrypt encKS ctr aligned_offset read_buf
  if diff + bufLen ≤ read_buf.length then
    .ok ((dec.drop diff).take bufLen, new_pos)
  else
    .diverged

/-- Reads a list of lengths in sequence through Aes128CtrReader.read,
concatenating the returned bytes and threading the position. -/
def Aes128CtrReader.readMany (base : Nat → Nat → List Nat) (encKS : Nat → Nat → Nat)
    (ctr : Nat) : Nat → List Nat → RResult (List Nat × Nat)
  | pos, [] => .ok ([], pos)
  | pos, n :: rest =>
    match Aes128CtrReader.read base encKS ctr pos n with
    | .ok (out, pos1) =>
      match Aes128CtrReader.readMany base encKS ctr pos1 rest with
      | .ok (outs, pos2) => .ok (out ++ outs, pos2)
      | .err e => .err e
      | .diverged => .diverged
    | .err e => .err e
    | .diverged => .diverged

/-- Base reader that supplies every requested byte from the byte function
data (a fully available source). -/
def fullBase (data : Nat → Nat) : Nat → Nat → List Nat :=
  fun p n => (List.range n).map (fun j => data (p + j))

-- Characterisation of a single read over a fully available base source:
-- the bytes returned depend only on the absolute positions read, and the
-- position advances by exactly the requested length.

theorem ctrKeystreamByte_sixteen_mul (encKS : Nat → Nat → Nat) (ctr q m : Nat) :
    ctrKeystreamByte encKS ctr (16 * q) m = ctrAbsByte encKS ctr (16 * q + m) := by
  unfold ctrKeystreamByte ctrAbsByte
  have h1 : ctr * 2 ^ 64 + 16 * q / 16 + m / 16 = ctr * 2 ^ 64 + (16 * q + m) / 16 := by
    omega
  have h2 : m % 16 = (16 * q + m) % 16 := by
    omega
  rw [h1, h2]

theorem ctrRead_fullBase (data : Nat → Nat) (encKS : Nat → Nat → Nat) (ctr pos n : Nat)
    (h : pos + n + 30 < 2 ^ 64) :
    Aes128CtrReader.read (fullBase data) encKS ctr pos n
      = .ok ((List.range n).map (fun j => data (pos + j) ^^^ ctrAbsByte encKS ctr (pos + j)),
             pos + n) := by
  obtain ⟨q, r, hpos, hr⟩ : ∃ q r, pos = 16 * q + r ∧ r < 16 :=
    ⟨pos / 16, pos % 16, by omega, by omega⟩
  subst hpos
  have hv : 16 * q + r < 2 ^ 64 := by omega
  have had : align_down (16 * q + r) 16 = 16 * q := by
    rw [align_down_16 hv]
    omega
  have hdiff : 16 * q + r - 16 * q = r := by omega
  have hraw : wrap64 (n + r) = n + r := by
    unfold wrap64
    omega
  have hup : align_up (n + r) 16 = (n + r + 15) / 16 * 16 := align_up_16 (by omega)
  simp only [Aes128CtrReader.read, fullBase, had, hdiff, hraw, hup]
  have hSlb : n + r ≤ (n + r + 15) / 16 * 16 := by omega
  have hSub : (n + r + 15) / 16 * 16 ≤ n + r + 15 := by omega
  have hlen : ((List.range ((n + r + 15) / 16 * 16)).map (fun j => data (16 * q + j))).length
      = (n + r + 15) / 16 * 16 := by
    simp
  rw [hlen]
  have hrep : (n + r + 15) / 16 * 16 - (n + r + 15) / 16 * 16 = 0 := by omega
  rw [hrep]
  simp only [List.replicate_zero, List.append_nil]
  have hguard : r + n ≤ ((List.range ((n + r + 15) / 16 * 16)).map
      (fun j => data (16 * q + j))).length := by
    simp
    omega
  rw [if_pos hguard]
  have hnew : ((((16 * q : Nat) : Int) + (((n + r + 15) / 16 * 16 : Nat) : Int)
      - (((n + r + 15) / 16 * 16 - (n + r) : Nat) : Int)) % ((2 : Int) ^ 64)).toNat
      = 16 * q + r + n := by
    have hb : ((16 * q + r + n : Nat) : Int) < (2 : Int) ^ 64 := by omega
    omega
  rw [hnew]
  refine congrArg RResult.ok (Prod.ext ?_ (by omega))
  apply List.ext_getElem
  · simp only [List.length_take, List.length_drop]
    unfold ctrDecrypt
    simp
    omega
  · intro j h1 h2
    have hjn : j < n := by
      simpa using h2
    have hjS : r + j < (n + r + 15) / 16 * 16 := by omega
    rw [List.getElem_take, List.getElem_drop]
    unfold ctrDecrypt
    have hmem : ∀ m : Nat, m < (n + r + 15) / 16 * 16 →
        ((List.range ((n + r + 15) / 16 * 16)).map (fun j => data (16 * q + j))).getD m 0
          = data (16 * q + m) := by
      intro m hm
      rw [List.getD_eq_getElem _ _ (by simpa using hm)]
      simp
    simp only [List.getElem_map, List.getElem_range]
    rw [hmem (r + j) hjS, ctrKeystreamByte_sixteen_mul]
    have harg : 16 * q + (r + j) = 16 * q + r + j := by omega
    rw [harg]

/-- Claim C10 (confirmed): Aes128CtrReader::read never surfaces a short
read: for every base reader whose replies respect the read contract
(never longer than requested, possibly shorter or empty) and whose seek
and read calls succeed, and every position and buffer length within the
u64 range, read returns Ok(buf.len()) with the whole caller buffer
filled; a base reply shorter than requested is padded (the temporary
buffer stays zeroed) and masked from the caller. -/
theorem ctrRead_ok_full_length (base : Nat → Nat → List Nat) (encKS : Nat → Nat → Nat)
    (ctr pos bufLen : Nat) (hbase : ∀ p m, (base p m).length ≤ m)
    (h : pos + bufLen + 30 < 2 ^ 64) :
    ∃ out newPos,
      Aes128CtrReader.read base encKS ctr pos bufLen = .ok (out, newPos)
        ∧ out.length = bufLen := by
  obtain ⟨q, r, hpos, hr⟩ : ∃ q r, pos = 16 * q + r ∧ r < 16 :=
    ⟨pos / 16, pos % 16, by omega, by omega⟩
  subst hpos
  have hv : 16 * q + r < 2 ^ 64 := by omega
  have had : align_down (16 * q + r) 16 = 16 * q := by
    rw [align_down_16 hv]
    omega
  have hdiff : 16 * q + r - 16 * q = r := by omega
  have hraw : wrap64 (bufLen + r) = bufLen + r := by
    unfold wrap64
    omega
  have hup : align_up (bufLen + r) 16 = (bufLen + r + 15) / 16 * 16 := align_up_16 (by omega)
  simp only [Aes128CtrReader.read, had, hdiff, hraw, hup]
  have hgot : (base (16 * q) ((bufLen + r + 15) / 16 * 16)).length
      ≤ (bufLen + r + 15) / 16 * 16 := hbase _ _
  have hSlb : bufLen + r ≤ (bufLen + r + 15) / 16 * 16 := by omega
  have hlenrb : (base (16 * q) ((bufLen + r + 15) / 16 * 16)
      ++ List.replicate ((bufLen + r + 15) / 16 * 16
          - (base (16 * q) ((bufLen + r + 15) / 16 * 16)).length) 0).length
      = (bufLen + r + 15) / 16 * 16 := by
    simp only [List.length_append, List.length_replicate]
    omega
  have hguard : r + bufLen ≤ (base (16 * q) ((bufLen + r + 15) / 16 * 16)
      ++ List.replicate ((bufLen + r + 15) / 16 * 16
          - (base (16 * q) ((bufLen + r + 15) / 16 * 16)).length) 0).length := by
    rw [hlenrb]
    omega
  rw [if_pos hguard]
  refine ⟨_, _, rfl, ?_⟩
  unfold ctrDecrypt
  simp only [List.length_take, List.length_drop, List.length_map, List.length_range, hlenrb]
  omega

/-- Claim C8 (confirmed): the Aes128CtrReader is position-independent.
For every fully available base source, every starting position L within
the u64 range and every partition of the range [L, L + N) into
consecutive sub-ranges (the list of sub-range lengths, summing to N),
reading the sub-ranges in order and concatenating the returned bytes
(readMany) equals the single read of N bytes at L, both in the bytes
returned and in the final position. -/
theorem ctrReadMany_eq_single (data : Nat → Nat) (encKS : Nat → Nat → Nat) (ctr : Nat) :
    ∀ (lens : List Nat) (L : Nat), L + lens.sum + 30 < 2 ^ 64 →
      Aes128CtrReader.readMany (fullBase data) encKS ctr L lens
        = Aes128CtrReader.read (fullBase data) encKS ctr L lens.sum := by
  intro lens
  induction lens with
  | nil =>
    intro L h
    rw [List.sum_nil] at h ⊢
    rw [ctrRead_fullBase data encKS ctr L 0 (by omega)]
    simp [Aes128CtrReader.readMany]
  | cons n rest ih =>
    intro L h
    rw [List.sum_cons] at h
    have h1 : L + n + 30 < 2 ^ 64 := by omega
    have h2 : (L + n) + rest.sum + 30 < 2 ^ 64 := by omega
    have h3 : L + (n + rest.sum) + 30 < 2 ^ 64 := by omega
    rw [List.sum_cons]
    have e1 : Aes128CtrReader.read (fullBase data) encKS ctr L n
        = .ok ((List.range n).map (fun j => data (L + j) ^^^ ctrAbsByte encKS ctr (L + j)), L + n) :=
      ctrRead_fullBase data encKS ctr L n h1
    have e2 : Aes128CtrReader.readMany (fullBase data) encKS ctr (L + n) rest
        = .ok ((List.range rest.sum).map
            (fun j => data (L + n + j) ^^^ ctrAbsByte encKS ctr (L + n + j)), L + n + rest.sum) := by
      rw [ih (L + n) h2]
      exact ctrRead_fullBase data encKS ctr (L + n) rest.sum h2
    simp only [Aes128CtrReader.readMany, e1, e2]
    rw [ctrRead_fullBase data encKS ctr L (n + rest.sum) h3]
    refine congrArg RResult.ok (Prod.ext ?_ (by omega))
    show (List.range n).map (fun j => data (L + j) ^^^ ctrAbsByte encKS ctr (L + j))
        ++ (List.range rest.sum).map (fun j => data (L + n + j) ^^^ ctrAbsByte encKS ctr (L + n + j))
      = (List.range (n + rest.sum)).map (fun j => data (L + j) ^^^ ctrAbsByte encKS ctr (L + j))
    rw [List.range_add, List.map_append, List.map_map]
    refine congrArg _ ?_
    apply List.map_congr_left
    intro a _
    have harg : L + (n + a) = L + n + a := by omega
    simp only [Function.comp_apply, harg]

-- ---------------------------------------------------------------------
-- key.rs
-- ---------------------------------------------------------------------

/-- Embeds the Keyset structure of key.rs: the three indexed key-area-key
tables (each entry a 16-byte key, here a byte list).  The header key is
consumed by the XTS layer, which this embedding takes as already applied,
so it is not carried. -/
structure Keyset where
  key_area_keys_application : List (List Nat)
  key_area_keys_ocean : List (List Nat)
  key_area_keys_system : List (List Nat)
  deriving DecidableEq, Repr

-- ---------------------------------------------------------------------
-- nca.rs
-- ---------------------------------------------------------------------

inductive KeyAreaEncryptionKeyIndex where
  | application
  | ocean
  | system
  deriving DecidableEq, Repr, Inhabited

/-- Table selected by the match on header.key_area_encryption_key_index in
NCA::new. -/
def Keyset.keyTable (ks : Keyset) : KeyAreaEncryptionKeyIndex → List (List Nat)
  | .application => ks.key_area_keys_application
  | .ocean => ks.key_area_keys_ocean
  | .system => ks.key_area_keys_system

structure FileSystemEntry where
  start_offset : Nat
  end_offset : Nat
  deriving DecidableEq, Repr

instance : Inhabited FileSystemEntry := ⟨⟨0, 0⟩⟩

/-- Embeds the KeyArea structure (the 0x40-byte key area split into its
three keys). -/
structure KeyArea where
  aes_xts_key : List Nat
  aes_ctr_key : List Nat
  unk_key : List Nat
  deriving DecidableEq, Repr

/-- Embeds KeyArea::from_slice: bytes 0..0x20, 0x20..0x30 and 0x30..0x40
of the slice. -/
def KeyArea.from_slice (s : List Nat) : KeyArea :=
  { aes_xts_key := s.take 0x20,
    aes_ctr_key := (s.drop 0x20).take 0x10,
    unk_key := (s.drop 0x30).take 0x10 }

def MAX_FILESYSTEM_COUNT : Nat := 4

def MEDIA_UNIT_SIZE : Nat := 0x200

/-- Embeds the decrypted NCA Header of nca.rs (the fields the post-
decryption logic reads; signatures, hashes and reserved bytes carry no
logic).  fs_entries is the [FileSystemEntry; 4] array, encrypted_key_area
the 0x40 key-area bytes. -/
structure NcaHeader where
  magic : Nat
  key_generation_old : Nat
  key_area_encryption_key_index : KeyAreaEncryptionKeyIndex
  key_generation : Nat
  fs_entries : List FileSystemEntry
  encrypted_key_area : List Nat
  deriving DecidableEq, Repr

/-- Embeds Header::MAGIC = u32::from_le_bytes(b"NCA3"). -/
def NcaHeader.MAGIC : Nat := 0x3341434E

/-- Embeds Header::get_key_generation of nca.rs. -/
def NcaHeader.get_key_generation (h : NcaHeader) : Nat :=
  let base_key_gen :=
    if h.key_generation_old < h.key_generation then h.key_generation
    else h.key_generation_old
  if base_key_gen > 0 then base_key_gen - 1 else base_key_gen

inductive FileSystemType where
  | romFs
  | partitionFs
  deriving DecidableEq, Repr, Inhabited

inductive EncryptionType where
  | auto
  | noCrypto
  | aesCtrOld
  | aesCtr
  | aesCtrEx
  deriving DecidableEq, Repr, Inhabited

/-- Embeds the decrypted FileSystemHeader of nca.rs.  The 0x100-byte
hash_info union is carried through its two read views: the
hierarchical_sha256.pfs0_offset field (PFS0 sections) and the offset of
hierarchical_integrity.levels[5], the last IVFC level (RomFS sections). -/
structure FileSystemHeader where
  version : Nat
  fs_type : FileSystemType
  encryption_type : EncryptionType
  hash_info_pfs0_offset : Nat
  hash_info_ivfc_level5_offset : Nat
  ctr : Nat
  deriving DecidableEq, Repr

instance : Inhabited FileSystemHeader := ⟨⟨0, .romFs, .auto, 0, 0, 0⟩⟩

/-- Embeds the NCA structure (reader handle omitted; it is passed to the
section openers explicitly). -/
structure NCA where
  keyset : Keyset
  dec_key_area : KeyArea
  header : NcaHeader
  fs_headers : List FileSystemHeader
  deriving DecidableEq, Repr

/-- Embeds NCA::new of nca.rs, starting after the XTS decryption of the
0x400-byte header and the four 0x200-byte filesystem headers (the
embedding receives their decrypted values; the preceding read_exact
failures are the Io errors outside these claims).  ecbDecrypt is the
opaque AES-128-ECB decryption (key, ciphertext to plaintext) used on the
encrypted key area.  The key-area-key lookup indexes a Vec; a missing
index panics in Rust, diverged here.  The ecb.decrypt call mutates
header.encrypted_key_area in place, so the header kept in the constructed
NCA carries the decrypted key-area bytes; every other header field is
stored as read.  No magic check occurs anywhere in the source. -/
def NCA.new (ecbDecrypt : List Nat → List Nat → List Nat) (header : NcaHeader)
    (fs_headers : List FileSystemHeader) (keyset : Keyset) : RResult NCA :=
  let key_gen := header.get_key_generation
  match (keyset.keyTable header.key_area_encryption_key_index).get? key_gen with
  | none => .diverged
  | some key_area_key =>
    let dec_bytes := ecbDecrypt key_area_key header.encrypted_key_area
    let dec_key_area := KeyArea.from_slice dec_bytes
    -- the in-place decryption: the header now holds the plaintext key area
    let header_dec := { header with encrypted_key_area := dec_bytes }
    let actual_fs_headers := (List.range MAX_FILESYSTEM_COUNT).filterMap (fun i =>
      let fs_entry := header_dec.fs_entries.getD i default
      let fs_header := fs_headers.getD i default
      let fs_start_offset := fs_entry.start_offset * MEDIA_UNIT_SIZE
      if fs_start_offset > 0 then some fs_header else none)
    .ok { keyset := keyset, dec_key_area := dec_key_area, header := header_dec,
          fs_headers := actual_fs_headers }

/-- Parameters with which a section Aes128CtrReader is constructed by the
two section openers (base_offset, ctr, key). -/
structure Aes128CtrReaderInit where
  base_offset : Nat
  ctr : Nat
  key : List Nat
  deriving DecidableEq, Repr

/-- Outcome of NCA::open_pfs0_filesystem / open_romfs_filesystem, modelled
up to the construction of the section reader that is handed to the
PFS0 / RomFs constructor: the two InvalidInput error returns (index out
of range; wrong filesystem type), the todo-macro panic on an unsupported
encryption type, or the reader construction. -/
inductive SectionOpenOutcome where
  | errInvalidIndex
  | errInvalidType
  | todoDiverged
  | opensReader : Aes128CtrReaderInit → SectionOpenOutcome
  deriving DecidableEq, Repr

/-- Embeds NCA::open_pfs0_filesystem of nca.rs.  Note that fs_headers is
the retained (filtered) list while header.fs_entries is indexed with the
same idx raw. -/
def NCA.open_pfs0_filesystem (nca : NCA) (idx : Nat) : SectionOpenOutcome :=
  if idx ≥ nca.fs_headers.length then .errInvalidIndex
  else
    let fs_header := nca.fs_headers.getD idx default
    let fs_entry := nca.header.fs_entries.getD idx default
    if fs_header.fs_type ≠ FileSystemType.partitionFs then .errInvalidType
    else
      let fs_start_offset := fs_entry.start_offset * MEDIA_UNIT_SIZE
      match fs_header.encryption_type with
      | .aesCtr =>
        .opensReader
          { base_offset := fs_start_offset + fs_header.hash_info_pfs0_offset,
            ctr := fs_header.ctr,
            key := nca.dec_key_area.aes_ctr_key }
      | _ => .todoDiverged

/-- Embeds NCA::open_romfs_filesystem of nca.rs. -/
def NCA.open_romfs_filesystem (nca : NCA) (idx : Nat) : SectionOpenOutcome :=
  if idx ≥ nca.fs_headers.length then .errInvalidIndex
  else
    let fs_header := nca.fs_headers.getD idx default
    let fs_entry := nca.header.fs_entries.getD idx default
    if fs_header.fs_type ≠ FileSystemType.romFs then .errInvalidType
    else
      let fs_start_offset := fs_entry.start_offset * MEDIA_UNIT_SIZE
      match fs_header.encryption_type with
      | .aesCtr =>
        .opensReader
          { base_offset := fs_start_offset + fs_header.hash_info_ivfc_level5_offset,
            ctr := fs_header.ctr,
            key := nca.dec_key_area.aes_ctr_key }
      | _ => .todoDiverged

-- ---------------------------------------------------------------------
-- pfs0.rs
-- ---------------------------------------------------------------------

/-- Embeds the PFS0 Header of pfs0.rs (0x10 bytes on disk). -/
structure PfsHeader where
  magic : Nat
  file_count : Nat
  string_table_size : Nat
  deriving DecidableEq, Repr

/-- Embeds Header::MAGIC = u32::from_le_bytes(b"PFS0"). -/
def PfsHeader.MAGIC : Nat := 0x30534650

/-- Embeds the PFS0 FileEntry of pfs0.rs (0x18 bytes on disk). -/
structure FileEntry where
  offset : Nat
  size : Nat
  string_table_offset : Nat
  deriving DecidableEq, Repr

instance : Inhabited FileEntry := ⟨⟨0, 0, 0⟩⟩

/-- Embeds the PFS0 structure of pfs0.rs (reader handle omitted; the
section reader is passed to read_file explicitly). -/
structure PFS0 where
  header : PfsHeader
  file_entries : List FileEntry
  string_table : List Nat
  deriving DecidableEq, Repr

/-- Embeds PFS0::new of pfs0.rs: validate the magic, then read file_count
FileEntry records in sequence; entryAt is the record the reader yields on
the i-th of those reads, so the stored list is the first file_count
values of entryAt; then the string heap (string_table_size bytes). -/
def PFS0.new (hdr : PfsHeader) (entryAt : Nat → FileEntry) (str_table : List Nat) :
    RResult PFS0 :=
  if hdr.magic ≠ PfsHeader.MAGIC then .err .invalidInput
  else
    .ok { header := hdr,
          file_entries := (List.range hdr.file_count).map entryAt,
          string_table := str_table }

/-- Embeds PFS0::read_file of pfs0.rs.  base is the section reader (the
bytes it returns for a position and requested size); the result carries
the absolute offset that the seek call targets and the byte count the
final read call returns (the Ok value of read_file).  The size-of
constants of the source: size_of Header = 0x10, size_of FileEntry =
0x18. -/
def PFS0.read_file (fs : PFS0) (base : Nat → Nat → List Nat) (idx offset bufLen : Nat) :
    RResult (Nat × Nat) :=
  if idx ≥ fs.file_entries.length then .err .invalidInput
  else
    let entry := fs.file_entries.getD idx default
    if wrap64 (offset + bufLen) > entry.size then .err .unexpectedEof
    else
      let base_offset := wrap64 (wrap64 (0x10 + wrap64 (0x18 * fs.header.file_count))
        + fs.header.string_table_size)
      let base_read_offset := wrap64 (base_offset + entry.offset)
      let read_offset := wrap64 (base_read_offset + offset)
      .ok (read_offset, (base read_offset bufLen).length)

-- ---------------------------------------------------------------------
-- romfs.rs
-- ---------------------------------------------------------------------

/-- Embeds the RomFs Header of romfs.rs (0x50 bytes on disk). -/
structure RomFsHeader where
  header_size : Nat
  dir_hash_table_offset : Nat
  dir_hash_table_size : Nat
  dir_table_offset : Nat
  dir_table_size : Nat
  file_hash_table_offset : Nat
  file_hash_table_size : Nat
  file_table_offset : Nat
  file_table_size : Nat
  file_data_offset : Nat
  deriving DecidableEq, Repr

/-- Embeds DirectoryInfo of romfs.rs. -/
structure DirectoryInfo where
  parent_dir_offset : Nat
  sibling_dir_offset : Nat
  first_child_dir_offset : Nat
  first_child_file_offset : Nat
  next_dir_hash : Nat
  name_len : Nat
  deriving DecidableEq, Repr

/-- Embeds FileInfo of romfs.rs. -/
structure FileInfo where
  parent_dir_offset : Nat
  sibling_file_offset : Nat
  data_offset : Nat
  data_size : Nat
  next_file_hash : Nat
  name_len : Nat
  deriving DecidableEq, Repr

/-- Model of the RomFS section reader for the lookup path: what the
structure-parsing reads of romfs.rs yield at an absolute position.
u32At models reader_read_val of a u32 (the hash-table cells); dirInfoAt
and fileInfoAt model read_dir_info / read_file_info (the parsed record
and the name bytes that follow it).  Names are raw byte lists (the Rust
code holds them as UTF-8 Strings). -/
structure RomFsImage where
  u32At : Nat → Nat
  dirInfoAt : Nat → DirectoryInfo × List Nat
  fileInfoAt : Nat → FileInfo × List Nat

def INVALID_INFO_OFFSET : Nat := 0xFFFFFFFF

def ROOT_DIR_OFFSET : Nat := 0

/-- Embeds RomFs::compute_hash of romfs.rs, on u32 arithmetic: hash starts
from parent_offset XOR 123456789, each name byte applies
hash = (hash >> 5) | (hash << 27) followed by hash = hash XOR byte;
the final reduction is hash % (hash_table_count as u32).  A zero count
makes the Rust remainder panic (diverged). -/
def RomFs.compute_hash (parent_offset : Nat) (name : List Nat) (hash_table_count : Nat) :
    RResult Nat :=
  let hash := name.foldl
    (fun h c => ((h >>> 5) ||| wrap32 (h <<< 27)) ^^^ c)
    (parent_offset ^^^ 123456789)
  if wrap32 hash_table_count = 0 then .diverged
  else .ok (hash % wrap32 hash_table_count)

/-- Embeds the chain walk of RomFs::find_dir_offset (the while loop over
next_dir_hash); fuel bounds the number of iterations, none meaning the
loop did not finish within the fuel. -/
def RomFs.dirChainWalk (img : RomFsImage) (hdr : RomFsHeader) (parent : Nat)
    (name : List Nat) : Nat → Nat → Option (RResult Nat)
  | _, 0 => none
  | cur, fuel + 1 =>
    if cur = INVALID_INFO_OFFSET then some (.err .notFound)
    else
      let dirAndName := img.dirInfoAt (wrap64 (hdr.dir_table_offset + cur))
      if dirAndName.1.parent_dir_offset = parent ∧ dirAndName.2 = name then
        some (.ok cur)
      else
        RomFs.dirChainWalk img hdr parent name dirAndName.1.next_dir_hash fuel

/-- Embeds the chain walk of RomFs::find_file_info (the while loop over
next_file_hash). -/
def RomFs.fileChainWalk (img : RomFsImage) (hdr : RomFsHeader) (parent : Nat)
    (name : List Nat) : Nat → Nat → Option (RResult FileInfo)
  | _, 0 => none
  | cur, fuel + 1 =>
    if cur = INVALID_INFO_OFFSET then some (.err .notFound)
    else
      let fileAndName := img.fileInfoAt (wrap64 (hdr.file_table_offset + cur))
      if fileAndName.1.parent_dir_offset = parent ∧ fileAndName.2 = name then
        some (.ok fileAndName.1)
      else
        RomFs.fileChainWalk img hdr parent name fileAndName.1.next_file_hash fuel

/-- Embeds RomFs::find_dir_offset of romfs.rs: hash the name with
bucket count dir_hash_table_size / size_of u32, read the u32 cell at
dir_hash_table_offset + hash * 4, then walk the chain. -/
def RomFs.find_dir_offset (img : RomFsImage) (hdr : RomFsHeader) (parent : Nat)
    (name : List Nat) (fuel : Nat) : Option (RResult Nat) :=
  match RomFs.compute_hash parent name (hdr.dir_hash_table_size / 4) with
  | .ok hash =>
    RomFs.dirChainWalk img hdr parent name
      (img.u32At (wrap64 (hdr.dir_hash_table_offset + hash * 4))) fuel
  | .err e => some (.err e)
  | .diverged => some .diverged

/-- Embeds RomFs::find_file_info of romfs.rs: as find_dir_offset, over the
file hash table and file table. -/
def RomFs.find_file_info (img : RomFsImage) (hdr : RomFsHeader) (parent : Nat)
    (name : List Nat) (fuel : Nat) : Option (RResult FileInfo) :=
  match RomFs.compute_hash parent name (hdr.file_hash_table_size / 4) with
  | .ok hash =>
    RomFs.fileChainWalk img hdr parent name
      (img.u32At (wrap64 (hdr.file_hash_table_offset + hash * 4))) fuel
  | .err e => some (.err e)
  | .diverged => some .diverged

/-- Embeds the directory walk of RomFs::find_file / find_dir: resolve each
path segment in turn with find_dir_offset, starting from the current
offset. -/
def RomFs.walkDirs (img : RomFsImage) (hdr : RomFsHeader) (fuel : Nat) :
    Nat → List (List Nat) → Option (RResult Nat)
  | cur, [] => some (.ok cur)
  | cur, d :: rest =>
    match RomFs.find_dir_offset img hdr cur d fuel with
    | none => none
    | some (.ok off) => RomFs.walkDirs img hdr fuel off rest
    | some (.err e) => some (.err e)
    | some .diverged => some .diverged

/-- Embeds RomFs::find_file of romfs.rs.  The Rust code splits the path
String on the slash; the embedding takes the list of segments (raw byte
lists).  pop() on the segment Vec takes the last segment as the file
name (unwrap on an empty Vec panics; Rust split never yields one); the
remaining segments are walked as directories from ROOT_DIR_OFFSET. -/
def RomFs.find_file (img : RomFsImage) (hdr : RomFsHeader) (fuel : Nat)
    (path_items : List (List Nat)) : Option (RResult FileInfo) :=
  match path_items.getLast? with
  | none => some .diverged
  | some file_item =>
    match RomFs.walkDirs img hdr fuel ROOT_DIR_OFFSET path_items.dropLast with
    | none => none
    | some (.ok dir_off) => RomFs.find_file_info img hdr dir_off file_item fuel
    | some (.err e) => some (.err e)
    | some .diverged => some .diverged

/-- Embeds RomFs::get_file_offset of romfs.rs: find_file, then the
FileInfo data_offset. -/
def RomFs.get_file_offset (img : RomFsImage) (hdr : RomFsHeader) (fuel : Nat)
    (path_items : List (List Nat)) : Option (RResult Nat) :=
  match RomFs.find_file img hdr fuel path_items with
  | none => none
  | some (.ok fi) => some (.ok fi.data_offset)
  | some (.err e) => some (.err e)
  | some .diverged => some .diverged

/-- Embeds RomFs::read_file_by_offset of romfs.rs: seek the section reader
to file_data_offset + file_offset + offset and read; the result carries
that absolute offset and the byte count the read call returns.  No size
check occurs anywhere in this path. -/
def RomFs.read_file_by_offset (hdr : RomFsHeader) (base : Nat → Nat → List Nat)
    (file_offset offset bufLen : Nat) : RResult (Nat × Nat) :=
  let file_data_offset := wrap64 (hdr.file_data_offset + file_offset)
  let read_offset := wrap64 (file_data_offset + offset)
  .ok (read_offset, (base read_offset bufLen).length)

/-- Embeds RomFs::read_file of romfs.rs: get_file_offset then
read_file_by_offset. -/
def RomFs.read_file (img : RomFsImage) (hdr : RomFsHeader) (fuel : Nat)
    (base : Nat → Nat → List Nat) (path_items : List (List Nat)) (offset bufLen : Nat) :
    Option (RResult (Nat × Nat)) :=
  match RomFs.get_file_offset img hdr fuel path_items with
  | none => none
  | some (.ok file_offset) =>
    some (RomFs.read_file_by_offset hdr base file_offset offset bufLen)
  | some (.err e) => some (.err e)
  | some .diverged => some .diverged

-- ---------------------------------------------------------------------
-- The RomFS name hash: the shift-or step of the code is the 32-bit
-- right rotation by 5 that the specification describes.
-- ---------------------------------------------------------------------

theorem lor_two_pow_mul (a m k : Nat) (ha : a < 2 ^ k) :
    a ||| 2 ^ k * m = 2 ^ k * m + a := by
  apply Nat.eq_of_testBit_eq
  intro i
  rw [Nat.testBit_lor, Nat.testBit_mul_pow_two_add m ha i]
  have hz : 2 ^ k * m = 2 ^ k * m + 0 := by omega
  rw [hz, Nat.testBit_mul_pow_two_add m (Nat.pos_pow_of_pos k (by norm_num)) i]
  by_cases h1 : i < k
  · simp [h1, Nat.zero_testBit]
  · have hai : a < 2 ^ i := by
      calc a < 2 ^ k := ha
      _ ≤ 2 ^ i := Nat.pow_le_pow_right (by norm_num) (by omega)
    simp [h1, Nat.testBit_lt_two_pow hai]

/-- Right rotation of a 32-bit value by n, written arithmetically: the low
n bits move to the top, the rest shift down. -/
def rotr32 (h n : Nat) : Nat := h % 2 ^ n * 2 ^ (32 - n) + h / 2 ^ n

theorem code_rot_eq_rotr32 {h : Nat} (hh : h < 2 ^ 32) :
    (h >>> 5) ||| wrap32 (h <<< 27) = rotr32 h 5 := by
  rw [Nat.shiftLeft_eq, Nat.shiftRight_eq_div_pow]
  unfold wrap32
  have hmod : h * 2 ^ 27 % 2 ^ 32 = h % 2 ^ 5 * 2 ^ 27 := by
    have h32 : (2 : Nat) ^ 32 = 2 ^ 5 * 2 ^ 27 := by norm_num
    rw [h32, Nat.mul_mod_mul_right]
  rw [hmod]
  have hdivlt : h / 2 ^ 5 < 2 ^ 27 := by omega
  have hcomm : h % 2 ^ 5 * 2 ^ 27 = 2 ^ 27 * (h % 2 ^ 5) := Nat.mul_comm _ _
  rw [hcomm, lor_two_pow_mul _ _ _ hdivlt]
  unfold rotr32
  have hexp : (32 : Nat) - 5 = 27 := rfl
  rw [hexp]
  omega

/-- The hash of the specification, written with the explicit rotation:
start from parent_offset XOR 123456789 and fold
hash = rotate_right_32(hash, 5) XOR byte over the name bytes. -/
def spec_name_hash (parent_offset : Nat) (name : List Nat) : Nat :=
  name.foldl (fun h c => rotr32 h 5 ^^^ c) (parent_offset ^^^ 123456789)

theorem rotr32_lt {h : Nat} (hh : h < 2 ^ 32) : rotr32 h 5 < 2 ^ 32 := by
  unfold rotr32
  have hexp : (32 : Nat) - 5 = 27 := rfl
  rw [hexp]
  omega

theorem code_hash_fold_eq (name : List Nat) :
    ∀ h : Nat, h < 2 ^ 32 → (∀ c ∈ name, c < 256) →
      name.foldl (fun h c => ((h >>> 5) ||| wrap32 (h <<< 27)) ^^^ c) h
        = name.foldl (fun h c => rotr32 h 5 ^^^ c) h := by
  induction name with
  | nil =>
    intro h _ _
    rfl
  | cons c rest ih =>
    intro h hh hc
    simp only [List.foldl_cons]
    rw [code_rot_eq_rotr32 hh]
    apply ih
    · have h1 : rotr32 h 5 < 2 ^ 32 := rotr32_lt hh
      have h2 : c < 2 ^ 32 := by
        have := hc c (List.mem_cons_self c rest)
        omega
      exact Nat.xor_lt_two_pow h1 h2
    · intro x hx
      exact hc x (List.mem_cons_of_mem c hx)

theorem compute_hash_spec (parent : Nat) (name : List Nat) (count : Nat)
    (hp : parent < 2 ^ 32) (hname : ∀ c ∈ name, c < 256)
    (hc0 : 0 < count) (hclt : count < 2 ^ 32) :
    RomFs.compute_hash parent name count = .ok (spec_name_hash parent name % count) := by
  unfold RomFs.compute_hash spec_name_hash
  have hinit : parent ^^^ 123456789 < 2 ^ 32 :=
    Nat.xor_lt_two_pow hp (by norm_num)
  rw [code_hash_fold_eq name (parent ^^^ 123456789) hinit hname]
  have hw : wrap32 count = count := by
    unfold wrap32
    omega
  rw [hw]
  have hne : ¬ (count = 0) := by omega
  rw [if_neg hne]

-- ---------------------------------------------------------------------
-- Concrete sample inputs used by witnesses and counterexamples.
-- ---------------------------------------------------------------------

/-- Sample ECB decryption oracle: returns the ciphertext unchanged. -/
def ecb0 : List Nat → List Nat → List Nat := fun _ c => c

/-- Keyset with a single application key at index 0. -/
def ksApp1 : Keyset := ⟨[[0]], [], []⟩

/-- Keyset with no keys at all. -/
def ksEmpty : Keyset := ⟨[], [], []⟩

/-- NCA header template with the given key generation fields. -/
def mkKeyGenHeader (kgo kg : Nat) : NcaHeader :=
  { magic := NcaHeader.MAGIC, key_generation_old := kgo,
    key_area_encryption_key_index := .application, key_generation := kg,
    fs_entries := [], encrypted_key_area := [] }

/-- PFS0-section filesystem header used by the NCA samples. -/
def fshP : FileSystemHeader :=
  { version := 2, fs_type := .partitionFs, encryption_type := .aesCtr,
    hash_info_pfs0_offset := 0x20, hash_info_ivfc_level5_offset := 0, ctr := 7 }

/-- Decrypted NCA header whose magic is not NCA3 and whose first entry is
present. -/
def hdrBadMagic : NcaHeader :=
  { magic := 0, key_generation_old := 0,
    key_area_encryption_key_index := .application, key_generation := 0,
    fs_entries := [⟨1, 2⟩, ⟨0, 0⟩, ⟨0, 0⟩, ⟨0, 0⟩], encrypted_key_area := [] }

/-- NCA constructed from hdrBadMagic. -/
def ncaBadMagic : NCA := ⟨ksApp1, ⟨[], [], []⟩, hdrBadMagic, [fshP]⟩

/-- Decrypted NCA header whose entry 0 is absent (start_offset 0) while
entry 1 is present: the retained list has one element but raw index 0 of
fs_entries is the skipped zero entry. -/
def hdrGap : NcaHeader :=
  { magic := NcaHeader.MAGIC, key_generation_old := 0,
    key_area_encryption_key_index := .application, key_generation := 0,
    fs_entries := [⟨0, 0⟩, ⟨5, 6⟩, ⟨0, 0⟩, ⟨0, 0⟩], encrypted_key_area := [] }

/-- Decrypted filesystem headers matching hdrGap: the raw header at index
1 (the only one retained) is the PFS0 header. -/
def fshListGap : List FileSystemHeader :=
  [⟨1, .romFs, .auto, 0, 0, 0⟩, fshP, default, default]

/-- NCA constructed from hdrGap. -/
def ncaGap : NCA := ⟨ksApp1, ⟨[], [], []⟩, hdrGap, [fshP]⟩

-- ---------------------------------------------------------------------
-- Claim theorems
-- ---------------------------------------------------------------------

/-- Unfolding equation of NCA.new when the key lookup misses. -/
theorem NCA.new_none_eq (ecb : List Nat → List Nat → List Nat) (header : NcaHeader)
    (fsh : List FileSystemHeader) (ks : Keyset)
    (hget : (ks.keyTable header.key_area_encryption_key_index).get?
      header.get_key_generation = none) :
    NCA.new ecb header fsh ks = .diverged := by
  simp only [NCA.new, hget]

/-- Unfolding equation of NCA.new when the key lookup hits: the stored
header is the input header with its key area replaced by the in-place
decryption result. -/
theorem NCA.new_some_eq (ecb : List Nat → List Nat → List Nat) (header : NcaHeader)
    (fsh : List FileSystemHeader) (ks : Keyset) (k : List Nat)
    (hget : (ks.keyTable header.key_area_encryption_key_index).get?
      header.get_key_generation = some k) :
    NCA.new ecb header fsh ks
      = .ok { keyset := ks,
              dec_key_area := KeyArea.from_slice (ecb k header.encrypted_key_area),
              header := { header with
                encrypted_key_area := ecb k header.encrypted_key_area },
              fs_headers := (List.range MAX_FILESYSTEM_COUNT).filterMap (fun i =>
                if (header.fs_entries.getD i default).start_offset * MEDIA_UNIT_SIZE > 0
                then some (fsh.getD i default) else none) } := by
  simp only [NCA.new, hget]

/-- Claim C1 (corrected): NCA::new never validates the header magic.
After the two header reads, the only way the construction can fail is the
key-area-key lookup, whose missing entry panics (the characterisation by
the table length below); no error value is ever returned, and whenever the
lookup succeeds the constructed NCA is returned with the magic field
stored exactly as it was read (the in-place decryption of the key area
being the only header mutation), whatever that magic holds - a container
whose decrypted magic is not NCA3 is not rejected. -/
theorem nca_new_ignores_magic :
    ∀ (ecb : List Nat → List Nat → List Nat) (header : NcaHeader)
      (fsh : List FileSystemHeader) (ks : Keyset),
      (NCA.new ecb header fsh ks = .diverged
        ↔ (ks.keyTable header.key_area_encryption_key_index).length
            ≤ header.get_key_generation)
      ∧ (∀ e, NCA.new ecb header fsh ks ≠ .err e)
      ∧ (∀ nca, NCA.new ecb header fsh ks = .ok nca →
          nca.header.magic = header.magic) := by
  intro ecb header fsh ks
  cases hget : (ks.keyTable header.key_area_encryption_key_index).get?
      header.get_key_generation with
  | none =>
    have hlen := List.get?_eq_none.mp hget
    rw [NCA.new_none_eq ecb header fsh ks hget]
    exact ⟨iff_of_true rfl hlen,
      fun e h => RResult.noConfusion h,
      fun nca h => RResult.noConfusion h⟩
  | some k =>
    have hlt : header.get_key_generation
        < (ks.keyTable header.key_area_encryption_key_index).length := by
      by_contra hge
      rw [List.get?_eq_none.mpr (by omega)] at hget
      exact Option.noConfusion hget
    rw [NCA.new_some_eq ecb header fsh ks k hget]
    refine ⟨⟨fun h => RResult.noConfusion h, fun hlen => absurd hlt (by omega)⟩,
      fun e h => RResult.noConfusion h, fun nca h => ?_⟩
    injection h with h1
    rw [← h1]

/-- Witness for C1: at a concrete header with a bad magic the constructor
does not return an invalid-input error. -/
theorem nca_new_ignores_magic_witness :
    NCA.new ecb0 hdrBadMagic [fshP] ksApp1 ≠ .err .invalidInput :=
  (nca_new_ignores_magic ecb0 hdrBadMagic [fshP] ksApp1).2.1 .invalidInput

/-- Counterexample for C1 as stated: a container whose decrypted magic (0)
is not NCA3 is not rejected - NCA::new returns a constructed NCA. -/
theorem nca_new_bad_magic_accepted :
    hdrBadMagic.magic ≠ NcaHeader.MAGIC
      ∧ NCA.new ecb0 hdrBadMagic [fshP] ksApp1 = .ok ncaBadMagic := by
  decide

/-- Claim C2 (confirmed): the effective key generation equals
max(key_generation_old, key_generation), minus one exactly when that
maximum is positive; in particular old = 2 with new = 0 gives master key
index 1, and both zero give index 0. -/
theorem get_key_generation_max_rule :
    (∀ h : NcaHeader,
      h.get_key_generation
        = if 0 < max h.key_generation_old h.key_generation
          then max h.key_generation_old h.key_generation - 1
          else max h.key_generation_old h.key_generation)
    ∧ (mkKeyGenHeader 2 0).get_key_generation = 1
    ∧ (mkKeyGenHeader 0 0).get_key_generation = 0 := by
  refine ⟨fun h => ?_, by decide, by decide⟩
  simp only [NcaHeader.get_key_generation]
  rw [Nat.max_def]
  split_ifs <;> omega

/-- Claim C3 (corrected): NCA::new retains exactly the filesystem headers
whose entry has start_offset > 0, and indices at or beyond the retained
count fail with the invalid-index error; but the two openers index
header.fs_entries with the retained index taken raw, so the start_offset
an opened section uses is that of fs_entries[idx], which is a skipped
zero entry whenever a zero entry precedes a retained one - opening such a
section does not fail with the invalid-index error. -/
theorem nca_retention_and_raw_entry_index :
    ∀ (ecb : List Nat → List Nat → List Nat) (header : NcaHeader)
      (fsh : List FileSystemHeader) (ks : Keyset) (nca : NCA) (idx : Nat),
      NCA.new ecb header fsh ks = .ok nca →
      (nca.fs_headers = (List.range MAX_FILESYSTEM_COUNT).filterMap (fun i =>
          if (header.fs_entries.getD i default).start_offset * MEDIA_UNIT_SIZE > 0
          then some (fsh.getD i default) else none))
      ∧ (idx ≥ nca.fs_headers.length →
          nca.open_pfs0_filesystem idx = .errInvalidIndex
            ∧ nca.open_romfs_filesystem idx = .errInvalidIndex)
      ∧ (idx < nca.fs_headers.length →
          (nca.fs_headers.getD idx default).fs_type = .partitionFs →
          (nca.fs_headers.getD idx default).encryption_type = .aesCtr →
          nca.open_pfs0_filesystem idx = .opensReader
            { base_offset := (header.fs_entries.getD idx default).start_offset
                * MEDIA_UNIT_SIZE + (nca.fs_headers.getD idx default).hash_info_pfs0_offset,
              ctr := (nca.fs_headers.getD idx default).ctr,
              key := nca.dec_key_area.aes_ctr_key }) := by
  intro ecb header fsh ks nca idx hnew
  cases hget : (ks.keyTable header.key_area_encryption_key_index).get?
      header.get_key_generation with
  | none =>
    rw [NCA.new_none_eq ecb header fsh ks hget] at hnew
    exact RResult.noConfusion hnew
  | some k =>
    rw [NCA.new_some_eq ecb header fsh ks k hget] at hnew
    injection hnew with h1
    have hF : nca.fs_headers = (List.range MAX_FILESYSTEM_COUNT).filterMap (fun i =>
        if (header.fs_entries.getD i default).start_offset * MEDIA_UNIT_SIZE > 0
        then some (fsh.getD i default) else none) := by
      rw [← h1]
    have hFsE : nca.header.fs_entries = header.fs_entries := by
      rw [← h1]
    refine ⟨hF, fun hge => ?_, fun hlt htype henc => ?_⟩
    · constructor
      · simp only [NCA.open_pfs0_filesystem]
        rw [if_pos hge]
      · simp only [NCA.open_romfs_filesystem]
        rw [if_pos hge]
    · simp only [NCA.open_pfs0_filesystem]
      rw [if_neg (by omega)]
      rw [htype, if_neg (fun hc => hc rfl), henc, hFsE]

/-- Witness for C3 (amended): in the gap scenario (entry 0 absent, entry 1
present) opening retained index 0 succeeds and builds its reader from the
skipped zero entry: base offset 0 * 0x200 + 0x20. -/
theorem nca_retention_witness :
    ncaGap.open_pfs0_filesystem 0 = .opensReader ⟨0x20, 7, []⟩ := by
  have h := (nca_retention_and_raw_entry_index ecb0 hdrGap fshListGap ksApp1 ncaGap 0
    (by decide)).2.2 (by decide) (by decide) (by decide)
  exact h.trans (by decide)

/-- Counterexample for C3 as stated: the retained section 0 of ncaGap
corresponds to a raw entry with start_offset 0, yet opening it does not
fail with the invalid-index error - it succeeds, using offset 0x20 in
place of the retained entry's 5 * 0x200 + 0x20. -/
theorem nca_zero_entry_opened :
    NCA.new ecb0 hdrGap fshListGap ksApp1 = .ok ncaGap
      ∧ (hdrGap.fs_entries.getD 0 default).start_offset = 0
      ∧ ncaGap.open_pfs0_filesystem 0 ≠ .errInvalidIndex
      ∧ ncaGap.open_pfs0_filesystem 0 = .opensReader ⟨0 * 0x200 + 0x20, 7, []⟩ := by
  decide

/-- Claim C4 (corrected): when the retained section's filesystem type
matches the requested operation and its encryption type is anything other
than AesCtr, the openers hit the todo macro and panic; no Unsupported
error value is returned. -/
theorem open_section_non_aesctr_todo :
    ∀ (nca : NCA) (idx : Nat), idx < nca.fs_headers.length →
      (nca.fs_headers.getD idx default).encryption_type ≠ .aesCtr →
      ((nca.fs_headers.getD idx default).fs_type = .partitionFs →
        nca.open_pfs0_filesystem idx = .todoDiverged)
      ∧ ((nca.fs_headers.getD idx default).fs_type = .romFs →
        nca.open_romfs_filesystem idx = .todoDiverged) := by
  intro nca idx hlt hne
  constructor
  · intro htype
    simp only [NCA.open_pfs0_filesystem]
    rw [if_neg (by omega), htype, if_neg (fun hc => hc rfl)]
  · intro htype
    simp only [NCA.open_romfs_filesystem]
    rw [if_neg (by omega), htype, if_neg (fun hc => hc rfl)]

/-- NCA whose single retained section is a PFS0 section with encryption
type None. -/
def ncaPlainPfs : NCA :=
  ⟨ksApp1, ⟨[], [], []⟩, mkKeyGenHeader 0 0,
    [⟨0, .partitionFs, .noCrypto, 0x20, 0, 3⟩]⟩

/-- NCA whose single retained section is a RomFS section with encryption
type AesCtrEx. -/
def ncaExRom : NCA :=
  ⟨ksApp1, ⟨[], [], []⟩, mkKeyGenHeader 0 0,
    [⟨0, .romFs, .aesCtrEx, 0, 0x40, 3⟩]⟩

/-- Witness for C4 (amended): the PFS0 opener panics on an encryption type
of None. -/
theorem open_section_todo_witness :
    ncaPlainPfs.open_pfs0_filesystem 0 = .todoDiverged := by
  have h := (open_section_non_aesctr_todo ncaPlainPfs 0 (by decide) (by decide)).1 (by decide)
  exact h

/-- Counterexample for C4 as stated: the RomFS opener on an AesCtrEx
section yields the todo-macro panic, not a returned error value. -/
theorem open_section_panics_not_errors :
    ncaExRom.open_romfs_filesystem 0 = .todoDiverged
      ∧ ncaExRom.open_romfs_filesystem 0 ≠ .errInvalidIndex
      ∧ ncaExRom.open_romfs_filesystem 0 ≠ .errInvalidType := by
  decide

/-- Claim C5 (corrected): when the keyset's key-area-key table for the
header's kaek family has no entry at the computed effective key
generation, NCA::new panics (Vec index out of bounds) instead of
returning a KeyNotFound error; no NCA object is produced. -/
theorem nca_new_missing_key_diverges :
    ∀ (ecb : List Nat → List Nat → List Nat) (header : NcaHeader)
      (fsh : List FileSystemHeader) (ks : Keyset),
      (ks.keyTable header.key_area_encryption_key_index).length
          ≤ header.get_key_generation →
      NCA.new ecb header fsh ks = .diverged := by
  intro ecb header fsh ks hlen
  exact NCA.new_none_eq ecb header fsh ks (List.get?_eq_none.mpr hlen)

/-- Witness for C5 (amended): an empty keyset with effective generation 1
makes the constructor panic. -/
theorem nca_new_missing_key_witness :
    NCA.new ecb0 (mkKeyGenHeader 2 0) [] ksEmpty = .diverged :=
  nca_new_missing_key_diverges ecb0 (mkKeyGenHeader 2 0) [] ksEmpty (by decide)

/-- Ocean-family header with effective key generation 4. -/
def hdrOcean : NcaHeader :=
  { magic := NcaHeader.MAGIC, key_generation_old := 5,
    key_area_encryption_key_index := .ocean, key_generation := 0,
    fs_entries := [], encrypted_key_area := [] }

/-- Counterexample for C5 as stated: the missing ocean key at generation 4
does not produce a returned error of any kind - the outcome is the
panic. -/
theorem nca_new_missing_key_panics_not_errors :
    NCA.new ecb0 hdrOcean [] ksApp1 = .diverged
      ∧ ∀ e, NCA.new ecb0 hdrOcean [] ksApp1 ≠ .err e := by
  refine ⟨by decide, fun e => ?_⟩
  intro h
  rw [show NCA.new ecb0 hdrOcean [] ksApp1 = .diverged from by decide] at h
  exact RResult.noConfusion h

/-- Claim C6 (confirmed): PFS0::read_file fails with InvalidInput when the
index is at or beyond file_count (the entry table length of a constructed
PFS0), fails with UnexpectedEof when offset + buf.len() exceeds the
entry's size, and otherwise seeks to
(0x10 + 0x18 * file_count + string_table_size) + entry.offset + offset
and returns the byte count of the read issued there for buf.len() bytes.
The two bound hypotheses confine the quantifiers to sums within the u64
range, where the usize arithmetic of the source does not wrap. -/
theorem pfs0_read_file_spec :
    ∀ (hdr : PfsHeader) (entryAt : Nat → FileEntry) (st : List Nat) (fs : PFS0)
      (base : Nat → Nat → List Nat) (idx offset bufLen : Nat),
      PFS0.new hdr entryAt st = .ok fs →
      offset + bufLen < 2 ^ 64 →
      0x10 + 0x18 * hdr.file_count + hdr.string_table_size
          + (fs.file_entries.getD idx default).offset + offset < 2 ^ 64 →
      (idx ≥ hdr.file_count →
        PFS0.read_file fs base idx offset bufLen = .err .invalidInput)
      ∧ (idx < hdr.file_count →
          offset + bufLen > (fs.file_entries.getD idx default).size →
          PFS0.read_file fs base idx offset bufLen = .err .unexpectedEof)
      ∧ (idx < hdr.file_count →
          offset + bufLen ≤ (fs.file_entries.getD idx default).size →
          PFS0.read_file fs base idx offset bufLen
            = .ok (0x10 + 0x18 * hdr.file_count + hdr.string_table_size
                + (fs.file_entries.getD idx default).offset + offset,
              (base (0x10 + 0x18 * hdr.file_count + hdr.string_table_size
                + (fs.file_entries.getD idx default).offset + offset) bufLen).length)) := by
  intro hdr entryAt st fs base idx offset bufLen hnew hb1 hb2
  by_cases hm : hdr.magic ≠ PfsHeader.MAGIC
  · have hbad : PFS0.new hdr entryAt st = .err .invalidInput := by
      simp only [PFS0.new, if_pos hm]
    rw [hbad] at hnew
    exact RResult.noConfusion hnew
  · have heq : PFS0.new hdr entryAt st
        = .ok ⟨hdr, (List.range hdr.file_count).map entryAt, st⟩ := by
      simp only [PFS0.new, if_neg hm]
    rw [heq] at hnew
    injection hnew with h1
    have hhdr : fs.header = hdr := by
      rw [← h1]
    have hlen : fs.file_entries.length = hdr.file_count := by
      rw [← h1]
      simp
    have hwof : wrap64 (offset + bufLen) = offset + bufLen := by
      unfold wrap64
      omega
    refine ⟨fun hge => ?_, fun hlt hgt => ?_, fun hlt hle => ?_⟩
    · simp only [PFS0.read_file]
      rw [if_pos (by omega)]
    · simp only [PFS0.read_file]
      rw [if_neg (by omega), hwof, if_pos hgt]
    · simp only [PFS0.read_file]
      rw [if_neg (by omega), hwof, if_neg (by omega), hhdr]
      have hX : wrap64 (wrap64 (wrap64 (wrap64 (0x10 + wrap64 (0x18 * hdr.file_count))
            + hdr.string_table_size) + (fs.file_entries.getD idx default).offset) + offset)
          = 0x10 + 0x18 * hdr.file_count + hdr.string_table_size
            + (fs.file_entries.getD idx default).offset + offset := by
        simp only [wrap64]
        omega
      rw [hX]

/-- One-file PFS0 header sample. -/
def hdrPfs1 : PfsHeader := ⟨PfsHeader.MAGIC, 1, 3⟩

/-- Entry source for the sample PFS0: every read yields the same entry. -/
def entryAt0 : Nat → FileEntry := fun _ => ⟨2, 4, 0⟩

/-- String heap of the sample PFS0. -/
def stPfs : List Nat := [0, 0, 0]

/-- The PFS0 that PFS0.new builds from the sample inputs. -/
def fsPfs : PFS0 := ⟨hdrPfs1, [⟨2, 4, 0⟩], stPfs⟩

/-- Base reader that supplies every requested byte as the value 1. -/
def base0 : Nat → Nat → List Nat := fun _ n => List.replicate n 1

/-- RomFS image sample: every hash-table cell holds offset 0, and the file
table holds a single zero-size file named by the byte 97 at offset 0. -/
def imgA : RomFsImage :=
  { u32At := fun _ => 0,
    dirInfoAt := fun _ => (⟨0, 0, 0, 0, 0, 0⟩, []),
    fileInfoAt := fun _ => (⟨0, 0, 0x100, 0, INVALID_INFO_OFFSET, 1⟩, [97]) }

/-- RomFS header sample with one-bucket hash tables and file data at
0x98. -/
def hdrRom : RomFsHeader := ⟨0x50, 0x50, 4, 0x54, 0x20, 0x74, 4, 0x78, 0x20, 0x98⟩

/-- The FileInfo the sample image resolves for the name byte 97. -/
def fiA : FileInfo := ⟨0, 0, 0x100, 0, INVALID_INFO_OFFSET, 1⟩

/-- Byte source for the C8 witness. -/
def dataId : Nat → Nat := fun p => p % 256

/-- Keystream oracle that returns zero bytes. -/
def ksZero : Nat → Nat → Nat := fun _ _ => 0

/-- Base reader that always replies with no bytes (a degenerate short
read). -/
def shortBase : Nat → Nat → List Nat := fun _ _ => []

/-- Witness for C6: at a one-file PFS0 with entry offset 2 and size 4,
reading 2 bytes at offset 1 succeeds and seeks to
0x10 + 0x18 * 1 + 3 + 2 + 1 = 46, returning 2 bytes. -/
theorem pfs0_read_file_witness :
    PFS0.read_file fsPfs base0 0 1 2 = .ok (46, 2) := by
  have h := (pfs0_read_file_spec hdrPfs1 entryAt0 stPfs fsPfs base0 0 1 2 (by decide)
    (by decide) (by decide)).2.2 (by decide) (by decide)
  exact h.trans (by decide)

/-- Claim C7 (corrected): RomFs::read_file performs no size check at all.
Whenever the path resolves to a FileInfo, the read succeeds for every
offset and buffer length - including offset + buf.len() > data_size - and
seeks to file_data_offset + FileInfo.data_offset + offset, returning the
byte count of the read issued there. -/
theorem romfs_read_file_no_eof_check :
    ∀ (img : RomFsImage) (hdr : RomFsHeader) (fuel : Nat)
      (base : Nat → Nat → List Nat) (path_items : List (List Nat))
      (offset bufLen : Nat) (fi : FileInfo),
      RomFs.find_file img hdr fuel path_items = some (.ok fi) →
      RomFs.read_file img hdr fuel base path_items offset bufLen
        = some (.ok (wrap64 (wrap64 (hdr.file_data_offset + fi.data_offset) + offset),
            (base (wrap64 (wrap64 (hdr.file_data_offset + fi.data_offset) + offset))
              bufLen).length)) := by
  intro img hdr fuel base path_items offset bufLen fi hfind
  simp only [RomFs.read_file, RomFs.get_file_offset, hfind, RomFs.read_file_by_offset]

/-- Witness for C7 (amended): a concrete single-file image resolves the
path and the read seeks to 0x98 + 0x100 + 3 and returns 5 bytes. -/
theorem romfs_read_file_witness :
    RomFs.read_file imgA hdrRom 1 base0 [[97]] 3 5 = some (.ok (0x98 + 0x100 + 3, 5)) := by
  have h := romfs_read_file_no_eof_check imgA hdrRom 1 base0 [[97]] 3 5 fiA (by decide)
  exact h.trans (by decide)

/-- Counterexample for C7 as stated: the resolved file has data_size 0,
reading 5 bytes at offset 0 exceeds it, yet read_file succeeds instead of
failing with UnexpectedEof. -/
theorem romfs_read_file_past_size_ok :
    RomFs.find_file imgA hdrRom 1 [[97]] = some (.ok fiA)
      ∧ fiA.data_size = 0
      ∧ RomFs.read_file imgA hdrRom 1 base0 [[97]] 0 5 = some (.ok (0x198, 5))
      ∧ RomFs.read_file imgA hdrRom 1 base0 [[97]] 0 5 ≠ some (.err .unexpectedEof) := by
  decide

/-- Claim C9 (confirmed): for a parent offset, name bytes and table size t
with a positive bucket count t / 4 below 2^32, both the directory lookup
and the file lookup start their chain walk at the hash-table cell of slot
spec_name_hash parent name mod (t / 4), where spec_name_hash folds
hash = rotate_right_32(hash, 5) XOR byte from parent XOR 123456789 - the
code's (hash >> 5) | (hash << 27) being exactly that rotation on u32. -/
theorem romfs_hash_bucket_slot :
    ∀ (img : RomFsImage) (hdr : RomFsHeader) (parent : Nat) (name : List Nat)
      (fuel : Nat), parent < 2 ^ 32 → (∀ c ∈ name, c < 256) →
      (0 < hdr.dir_hash_table_size / 4 → hdr.dir_hash_table_size / 4 < 2 ^ 32 →
        RomFs.find_dir_offset img hdr parent name fuel
          = RomFs.dirChainWalk img hdr parent name
              (img.u32At (wrap64 (hdr.dir_hash_table_offset
                + spec_name_hash parent name % (hdr.dir_hash_table_size / 4) * 4))) fuel)
      ∧ (0 < hdr.file_hash_table_size / 4 → hdr.file_hash_table_size / 4 < 2 ^ 32 →
        RomFs.find_file_info img hdr parent name fuel
          = RomFs.fileChainWalk img hdr parent name
              (img.u32At (wrap64 (hdr.file_hash_table_offset
                + spec_name_hash parent name % (hdr.file_hash_table_size / 4) * 4))) fuel) := by
  intro img hdr parent name fuel hp hname
  constructor
  · intro h0 hlt
    simp only [RomFs.find_dir_offset,
      compute_hash_spec parent name (hdr.dir_hash_table_size / 4) hp hname h0 hlt]
  · intro h0 hlt
    simp only [RomFs.find_file_info,
      compute_hash_spec parent name (hdr.file_hash_table_size / 4) hp hname h0 hlt]

/-- Witness for C9: the concrete image's directory lookup starts at the
slot the rotation hash selects. -/
theorem romfs_hash_bucket_witness :
    RomFs.find_dir_offset imgA hdrRom 0 [97] 1
      = RomFs.dirChainWalk imgA hdrRom 0 [97]
          (imgA.u32At (wrap64 (hdrRom.dir_hash_table_offset
            + spec_name_hash 0 [97] % (hdrRom.dir_hash_table_size / 4) * 4))) 1 :=
  (romfs_hash_bucket_slot imgA hdrRom 0 [97] 1 (by decide) (by decide)).1
    (by decide) (by decide)

/-- Witness for C8: reading 3, then 0, then 4 bytes from position 5
equals the single 7-byte read. -/
theorem ctr_position_independence_witness :
    Aes128CtrReader.readMany (fullBase dataId) ksZero 0 5 [3, 0, 4]
      = Aes128CtrReader.read (fullBase dataId) ksZero 0 5 7 := by
  have h := ctrReadMany_eq_single dataId ksZero 0 [3, 0, 4] 5 (by decide)
  exact h

/-- Witness for C10: a base reader that always replies with no bytes at
all still yields Ok with the full 7 requested bytes. -/
theorem ctr_full_length_witness :
    ∃ out newPos, Aes128CtrReader.read shortBase ksZero 0 5 7 = .ok (out, newPos)
      ∧ out.length = 7 :=
  ctrRead_ok_full_length shortBase ksZero 0 5 7 (fun _ m => Nat.zero_le m) (by decide)
